import Mathlib

set_option maxRecDepth 8000
set_option maxHeartbeats 1000000

/-!
Verification development for the docdb-to-tabular transformation engine
(`preprocess.py`).  The parsed XML tree, the declarative schema config, the
recursive extractor (`DocdbToTabular.process_path`), the primary-key resolver
(`get_pk`), the table accumulator (`self.tables`), the batch driver
(`convert`) and the field-order resolver (`get_fieldnames`) are shallowly
embedded as executable Lean definitions, and the specification's claims are
settled as theorems about them.
-/

/-- Tree node of a parsed document: tag name, own text content, and child
elements, modelling the element tree produced by the external XML parser. -/
inductive Elem where
  | mk (tag : String) (txt : String) (children : List Elem)

/-- Tag name of an element. -/
def Elem.tag : Elem → String
  | .mk t _ _ => t

/-- Own (direct) text content of an element. -/
def Elem.txt : Elem → String
  | .mk _ s _ => s

/-- Child elements of an element. -/
def Elem.children : Elem → List Elem
  | .mk _ _ cs => cs

mutual
/-- Flattened text of an element and all its descendants, modelling
`etree.tostring(elem, method="text")`. -/
def rawText : Elem → String
  | .mk _ s cs => s ++ rawTextList cs

/-- Flattened text of a list of elements, in order. -/
def rawTextList : List Elem → String
  | [] => ""
  | c :: cs => rawText c ++ rawTextList cs
end

/-- Whitespace characters as matched by the regex class used in `get_text`. -/
def isWsChar (c : Char) : Bool :=
  c = ' ' || c = '\t' || c = '\n' || c = '\r' || c = '\x0b' || c = '\x0c'

/-- Split a character list into maximal whitespace-free words. -/
def splitWsAux : List Char → List Char → List String
  | [], acc => if acc.isEmpty then [] else [String.mk acc.reverse]
  | c :: cs, acc =>
    if isWsChar c then
      if acc.isEmpty then splitWsAux cs []
      else String.mk acc.reverse :: splitWsAux cs []
    else splitWsAux cs (c :: acc)

/-- Join strings with a separator, modelling Python `sep.join(...)`. -/
def joinStrs (sep : String) : List String → String
  | [] => ""
  | [x] => x
  | x :: y :: rest => x ++ sep ++ joinStrs sep (y :: rest)

/-- Collapse every whitespace run to a single space and trim both ends,
modelling `re.sub(r"\s+", " ", s).strip()`. -/
def normalizeWs (s : String) : String := joinStrs " " (splitWsAux s.data [])

/-- Normalized flattened text of an element: `DocdbToTabular.get_text`. -/
def get_text (e : Elem) : String := normalizeWs (rawText e)

/-- Split a character list on a separator character, keeping empty parts,
modelling Python `str.split(sep)`. -/
def splitOnChar (sep : Char) : List Char → List (List Char)
  | [] => [[]]
  | c :: cs =>
    if c = sep then [] :: splitOnChar sep cs
    else
      match splitOnChar sep cs with
      | [] => [[c]]
      | w :: ws => (c :: w) :: ws

/-- Segments of a relative tag path such as `"SDOBI/B100"`. -/
def pathSegs (p : String) : List String :=
  (splitOnChar '/' p.data).map (fun cs => String.mk cs)

/-- Children of an element carrying the given tag, in document order. -/
def childrenTagged (e : Elem) (tag : String) : List Elem :=
  e.children.filter (fun c => c.tag = tag)

/-- Resolve a sequence of path segments step by step from a set of context
elements, in document order. -/
def resolveSegs : List Elem → List String → List Elem
  | es, [] => es
  | es, seg :: rest => resolveSegs ((es.map (fun e => childrenTagged e seg)).flatten) rest

/-- Relative path lookup from a context element, modelling
`elem.findall("./" ++ path)` for plain tag paths. -/
def findallRel (e : Elem) (path : String) : List Elem :=
  resolveSegs [e] (pathSegs path)

/-- Context handed to `process_path`: either the whole parsed document (an
`ElementTree`, whose `getroot()` succeeds) or an individual element. -/
inductive Node where
  | root (e : Elem)
  | sub (e : Elem)

/-- Underlying element of a context node (`getroot()` for the tree case). -/
def Node.base : Node → Elem
  | .root e => e
  | .sub e => e

/-- Elements matched by `process_path`: the document root is treated as the
sole match for a top-level rule (`tree.getroot()` succeeds), otherwise the
relative path is resolved (`tree.findall("./" + path)`). -/
def getElems : Node → String → List Elem
  | .root e, _ => [e]
  | .sub e, p => findallRel e p

/-- Path lookup used by `get_pk`: `tree.findall` delegates to the root
element for a whole-document context. -/
def nodeFind (n : Node) (p : String) : List Elem := findallRel n.base p

/-- Python truthiness of a string: nonempty. -/
def strTruthy (s : String) : Bool := !s.data.isEmpty

/-- Whether a config string begins with the pipe character. -/
def startsBar (s : String) : Bool :=
  match s.data with
  | [] => false
  | c :: _ => c = '|'

/-- Whether a config string contains a colon. -/
def hasColon (s : String) : Bool := s.data.contains ':'

/-- Drop the first character, modelling Python `s[1:]`. -/
def strTail (s : String) : String := String.mk s.data.tail

/-- Substring before the first colon, modelling `s.split(":")[0]`. -/
def colonField (s : String) : String :=
  String.mk ((splitOnChar ':' s.data).headD [])

/-- Substring between the first and second colons, modelling
`s.split(":")[1]`. -/
def colonValue (s : String) : String :=
  String.mk ((splitOnChar ':' s.data).getD 1 [])

/-- An output record: ordered mapping from column name to value, with
Python-dict insertion semantics. -/
abbrev Record := List (String × String)

/-- The Table Store as an append-only log of (entity name, record) pairs;
the per-entity row list is the ordered sublist with that name. -/
abbrev Tables := List (String × Record)

/-- Lookup of a key in a record (first binding wins). -/
def rget : Record → String → Option String
  | [], _ => none
  | (k, v) :: rest, q => if k = q then some v else rget rest q

/-- Python dict assignment: update an existing key in place, else append. -/
def dictInsert : Record → String → String → Record
  | [], k, v => [(k, v)]
  | (k0, v0) :: rest, k, v =>
    if k0 = k then (k0, v) :: rest else (k0, v0) :: dictInsert rest k v

/-- Declarative schema rule: a raw scalar config string (sniffed at use
time, as in the source) or an entity rule with name, optional primary-key
path and ordered nested fields. -/
inductive Config where
  | scalar (s : String)
  | entity (name : String) (pk : Option String) (fields : List (String × Config))

/-- Python truthiness of an optional string (`None` and `""` are falsy). -/
def optTruthy : Option String → Bool
  | none => false
  | some s => strTruthy s

/-- Python rendering of an optional string inside an f-string. -/
def pyOptStr : Option String → String
  | none => "None"
  | some s => s

/-- Error raised during extraction: the `AssertionError` the source raises
on a cardinality violation (the specification's `SchemaViolation`). -/
inductive PErr where
  | violation
deriving DecidableEq

/-- Primary-key resolution, modelling `DocdbToTabular.get_pk`: a truthy
`pk` path must match exactly one element, whose normalized text is the
natural key; otherwise the key is `None`. -/
def get_pk (node : Node) (pkc : Option String) : Except PErr (Option String) :=
  match pkc with
  | none => .ok none
  | some p =>
    if strTruthy p then
      match nodeFind node p with
      | [e] => .ok (some (get_text e))
      | _ => .error .violation
    else .ok none

/-- Number of rows accumulated so far for an entity name:
`len(self.tables[entity])`. -/
def rowCount (t : Tables) (name : String) : Nat :=
  (t.filter (fun pr => pr.1 = name)).length

/-- Rows accumulated for an entity name, in insertion order. -/
def rowsOf (t : Tables) (name : String) : List Record :=
  (t.filter (fun pr => pr.1 = name)).map (fun pr => pr.2)

/-- The fresh record an entity rule builds for one matched element before
its fields are processed: the natural or synthetic `id` (natural when the
resolved key is truthy), then the parent-link column when the parent key is
truthy. -/
def initRecord (name : String) (pkv : Option String) (pe ppk : Option String)
    (tables : Tables) : Record :=
  let idv := if optTruthy pkv then pyOptStr pkv
             else Nat.repr (rowCount tables name)
  let srec0 := dictInsert [] "id" idv
  if optTruthy ppk then dictInsert srec0 (pyOptStr pe ++ "_id") (pyOptStr ppk)
  else srec0

mutual
/-- The recursive extractor `DocdbToTabular.process_path`.  A scalar rule
mutates the current record (pipe-join first, then the exactly-one assertion,
then the colon literal, then plain text); an entity rule produces one row
per matched element.  Returns the resulting record (or the raised error)
together with the table store, which keeps all rows appended before an
error, as the source's instance state does. -/
def process_path (node : Node) (path : String) (cfg : Config) (record : Record)
    (pe : Option String) (ppk : Option String) (tables : Tables) :
    Except PErr Record × Tables :=
  match cfg with
  | .scalar s =>
    match getElems node path with
    | [] => (.ok record, tables)
    | e :: rest =>
      if startsBar s then
        (.ok (dictInsert record (strTail s)
          (joinStrs "|" ((e :: rest).map get_text))), tables)
      else if rest.isEmpty then
        if hasColon s then
          (.ok (dictInsert record (colonField s) (colonValue s)), tables)
        else (.ok (dictInsert record s (get_text e)), tables)
      else (.error .violation, tables)
  | .entity name pkc fields =>
    match process_elems (getElems node path) node name pkc fields pe ppk tables with
    | (.error err, t1) => (.error err, t1)
    | (.ok _, t1) => (.ok record, t1)
termination_by (sizeOf cfg, 0)
decreasing_by
  all_goals simp [Prod.lex_iff]
  all_goals omega

/-- The per-element loop of the entity branch of `process_path`: resolve the
primary key against the enclosing context, assign the natural or synthetic
`id`, set the parent-link column when the parent key is truthy, process the
nested fields, then append the finished record. -/
def process_elems (elems : List Elem) (node : Node) (name : String)
    (pkc : Option String) (fields : List (String × Config))
    (pe : Option String) (ppk : Option String) (tables : Tables) :
    Except PErr Unit × Tables :=
  match elems with
  | [] => (.ok (), tables)
  | e :: rest =>
    match get_pk node pkc with
    | .error err => (.error err, tables)
    | .ok pkv =>
      match process_fields e fields (initRecord name pkv pe ppk tables) name pkv tables with
      | (.error err, t1) => (.error err, t1)
      | (.ok srec2, t1) =>
        process_elems rest node name pkc fields pe ppk (t1 ++ [(name, srec2)])
termination_by (sizeOf fields, elems.length + 1)
decreasing_by
  all_goals simp [Prod.lex_iff]
  all_goals omega

/-- The nested-field loop of the entity branch: apply every
`(subpath, subconfig)` pair in declaration order against the matched
element, threading the record under construction and the table store. -/
def process_fields (e : Elem) (fields : List (String × Config)) (record : Record)
    (entity : String) (pkv : Option String) (tables : Tables) :
    Except PErr Record × Tables :=
  match fields with
  | [] => (.ok record, tables)
  | (p, c) :: rest =>
    match process_path (.sub e) p c record (some entity) pkv tables with
    | (.error err, t1) => (.error err, t1)
    | (.ok r1, t1) => process_fields e rest r1 entity pkv t1
termination_by (sizeOf fields, 0)
decreasing_by
  all_goals simp [Prod.lex_iff]
  all_goals omega
end

/-- Top-level per-document extraction, modelling `DocdbToTabular.process_doc`:
apply every top-level `(path, rule)` pair of the config, each against the
whole-document context with a fresh empty record.  On an error the table
store keeps everything appended so far, as the source's instance state
does. -/
def process_doc (cfg : List (String × Config)) (docRoot : Elem) (tables : Tables) :
    Option PErr × Tables :=
  match cfg with
  | [] => (none, tables)
  | (p, c) :: rest =>
    match process_path (.root docRoot) p c [] none none tables with
    | (.error err, t1) => (some err, t1)
    | (.ok _, t1) => process_doc rest docRoot t1

/-- Effect of successive `process_doc` calls on the shared table store:
the per-document loop of `DocdbToTabular.convert`, keeping whatever each
document appended, whether or not it failed. -/
def run_docs (cfg : List (String × Config)) : List Elem → Tables → Tables
  | [], t => t
  | d :: ds, t => run_docs cfg ds (process_doc cfg d t).2

/-- A raw batch document as seen by `DocdbToTabular.convert`: the outcome of
parsing it (`none` models an `etree.XMLSyntaxError`) together with the
outcome of the secondary identity locator
`re.search(r"<B210><DNUM><PDAT>(\d+)...", doc)` on its raw text (`none`
models a document in which the pattern does not occur). -/
structure Doc where
  pid : Option String
  parsed : Option Elem

/-- Outcome of a batch run: either the loop completed, with the table store
and the identifiers of the documents whose failures were logged, or an
exception escaped the per-document handler and aborted the batch. -/
inductive BatchOutcome where
  | completed (tables : Tables) (failures : List String)
  | aborted (tables : Tables)
deriving DecidableEq

/-- The per-document `except` handler of `DocdbToTabular.convert`.  It
evaluates `re.search(...).group(1)` — an `AttributeError` if the locator
found nothing — and `exc.msg` — an `AttributeError` if the exception is an
`AssertionError`, which has no `msg` attribute.  Returns the logged
identifier, or `none` when the handler itself raises. -/
def handleDocFailure (pid : Option String) (isAssert : Bool) : Option String :=
  match pid with
  | none => none
  | some idv => if isAssert then none else some idv

/-- The batch driver loop of `DocdbToTabular.convert`: parse each document,
extract it, and on failure run the `except` handler; an error escaping the
handler aborts the whole batch. -/
def convert (cfg : List (String × Config)) :
    List Doc → Tables → List String → BatchOutcome
  | [], tables, fails => .completed tables fails
  | d :: rest, tables, fails =>
    match d.parsed with
    | none =>
      match handleDocFailure d.pid false with
      | some idv => convert cfg rest tables (fails ++ [idv])
      | none => .aborted tables
    | some tree =>
      match process_doc cfg tree tables with
      | (none, t1) => convert cfg rest t1 fails
      | (some _, t1) =>
        match handleDocFailure d.pid true with
        | some idv => convert cfg rest t1 (fails ++ [idv])
        | none => .aborted t1

/-- Column name contributed by a scalar config string in
`DocdbToTabular.get_fieldnames` (colon sniffed before pipe there). -/
def fnCol (s : String) : String :=
  if hasColon s then colonField s
  else if startsBar s then strTail s
  else s

/-- Column name written by a scalar config string in `process_path`
(pipe sniffed before colon there). -/
def scalarCol (s : String) : String :=
  if startsBar s then strTail s
  else if hasColon s then colonField s
  else s

/-- Per-table column lists, keyed by entity name; absent tables resolve to
the empty list (`defaultdict(list)`). -/
abbrev FMap := String → List String

/-- Pointwise update of a per-table column map. -/
def fupdate (m : FMap) (k : String) (v : List String) : FMap :=
  fun x => if x = k then v else m x

/-- Order-preserving de-duplication keeping first occurrences, modelling
`list(dict.fromkeys(l).keys())`. -/
def dedupKeys : List String → List String
  | [] => []
  | x :: xs => x :: dedupKeys (xs.filter (fun y => y ≠ x))
termination_by l => l.length
decreasing_by
  all_goals simp
  all_goals (have hfl := List.length_filter_le (fun y => !decide (y = x)) xs; omega)

/-- Initial entity-local column list of `add_fieldnames`: `id` when a
truthy `pk` is declared or a parent exists, then the parent-link column
when a parent exists. -/
def afAcc0 (pkc po : Option String) : List String :=
  (if optTruthy pkc || optTruthy po then ["id"] else [])
    ++ (if optTruthy po then [pyOptStr po ++ "_id"] else [])

mutual
/-- The recursive worker of `DocdbToTabular.get_fieldnames`: a scalar rule
appends its column to the caller's list; an entity rule starts a fresh list
(`id` when a truthy `pk` is declared or a parent exists, then the parent
link column), collects its fields, and merges the result into the global
map for its entity name, de-duplicating while preserving first-seen
order. -/
def add_fieldnames (cfg : Config) (fns : FMap) (acc : List String)
    (po : Option String) : FMap × List String :=
  match cfg with
  | .scalar s => (fns, acc ++ [fnCol s])
  | .entity name pkc fields =>
    let res := add_fields fields fns (afAcc0 pkc po) name
    (fupdate res.1 name (dedupKeys (res.1 name ++ res.2)), acc)
termination_by sizeOf cfg
decreasing_by
  all_goals simp
  all_goals omega

/-- Field loop of `add_fieldnames`, threading the global map and the
entity-local column list through the fields in declaration order. -/
def add_fields (fields : List (String × Config)) (fns : FMap)
    (acc : List String) (entity : String) : FMap × List String :=
  match fields with
  | [] => (fns, acc)
  | (_, c) :: rest =>
    let res := add_fieldnames c fns acc (some entity)
    add_fields rest res.1 res.2 entity
termination_by sizeOf fields
decreasing_by
  all_goals simp
  all_goals omega
end

/-- Worker loop of `get_fieldnames` over the top-level config rules. -/
def gf_go : List (String × Config) → FMap → FMap
  | [], m => m
  | (_, c) :: rest, m => gf_go rest (add_fieldnames c m [] none).1

/-- The Field-Order Resolver `DocdbToTabular.get_fieldnames`: fold every
top-level config rule into an initially empty per-table column map. -/
def get_fieldnames (cfg : List (String × Config)) : FMap :=
  gf_go cfg (fun _ => [])

theorem rget_dictInsert_self (r : Record) (k v : String) :
    rget (dictInsert r k v) k = some v := by
  induction r with
  | nil => simp [dictInsert, rget]
  | cons p rest ih =>
    obtain ⟨k0, v0⟩ := p
    by_cases h : k0 = k <;> simp [dictInsert, rget, h, ih]

theorem rget_dictInsert_ne (r : Record) (k v q : String) (hq : q ≠ k) :
    rget (dictInsert r k v) q = rget r q := by
  have hk : ¬ k = q := fun h => hq h.symm
  induction r with
  | nil => simp [dictInsert, rget, hk]
  | cons p rest ih =>
    obtain ⟨k0, v0⟩ := p
    by_cases h : k0 = k
    · subst h
      simp [dictInsert, rget, hk]
    · simp [dictInsert, rget, h, ih]

theorem rget_dictInsert_isSome (r : Record) (k v q : String)
    (h : (rget r q).isSome = true) :
    (rget (dictInsert r k v) q).isSome = true := by
  by_cases hq : q = k
  · subst hq
    simp [rget_dictInsert_self]
  · rw [rget_dictInsert_ne r k v q hq]
    exact h

mutual
/-- Entity names that can receive appended rows while a rule is processed:
the rule's own entity name and, recursively, those of its nested rules. -/
def deepNames : Config → List String
  | .scalar _ => []
  | .entity n _ fs => n :: deepNamesFields fs
termination_by cfg => sizeOf cfg
decreasing_by
  all_goals simp
  all_goals omega

/-- Entity names reachable from a field list. -/
def deepNamesFields : List (String × Config) → List String
  | [] => []
  | (_, c) :: rest => deepNames c ++ deepNamesFields rest
termination_by fs => sizeOf fs
decreasing_by
  all_goals simp
  all_goals omega
end

/-- Columns of the current record a rule can write (an entity rule writes
none: it builds rows of its own). -/
def writeCols : Config → List String
  | .scalar s => [scalarCol s]
  | .entity _ _ _ => []

/-- Columns of the current record a field list can write. -/
def writeColsFields : List (String × Config) → List String
  | [] => []
  | (_, c) :: rest => writeCols c ++ writeColsFields rest

theorem pp_entity_snd (node : Node) (path name : String) (pkc : Option String)
    (fields : List (String × Config)) (record : Record)
    (pe ppk : Option String) (tables : Tables) :
    (process_path node path (.entity name pkc fields) record pe ppk tables).2
      = (process_elems (getElems node path) node name pkc fields pe ppk tables).2 := by
  rw [process_path]
  rcases h : process_elems (getElems node path) node name pkc fields pe ppk tables
    with ⟨res, t1⟩
  cases res <;> simp

theorem pp_scalar_char (node : Node) (path s : String) (record : Record)
    (pe ppk : Option String) (tables : Tables) :
    (process_path node path (.scalar s) record pe ppk tables).2 = tables
    ∧ ∀ r2, (process_path node path (.scalar s) record pe ppk tables).1 = .ok r2 →
        r2 = record ∨ ∃ v, r2 = dictInsert record (scalarCol s) v := by
  cases h : getElems node path with
  | nil =>
    rw [process_path]
    simp [h]
  | cons e rest =>
    rw [process_path]
    simp only [h]
    by_cases hb : startsBar s
    · simp only [hb, if_true]
      refine ⟨trivial, ?_⟩
      intro r2 h2
      right
      exact ⟨_, by simpa [scalarCol, hb] using (Except.ok.inj h2).symm⟩
    · by_cases h1 : rest.isEmpty
      · by_cases hc : hasColon s
        · simp only [hb, if_false, h1, if_true, hc, Bool.false_eq_true]
          refine ⟨trivial, ?_⟩
          intro r2 h2
          right
          exact ⟨_, by simpa [scalarCol, hb, hc] using (Except.ok.inj h2).symm⟩
        · simp only [hb, if_false, h1, if_true, hc, Bool.false_eq_true]
          refine ⟨trivial, ?_⟩
          intro r2 h2
          right
          exact ⟨_, by simpa [scalarCol, hb, hc] using (Except.ok.inj h2).symm⟩
      · simp [hb, h1]

theorem linkKey_ne_id (a : String) : a ++ "_id" ≠ "id" := by
  intro h
  have hlen : (a ++ "_id").length = ("id" : String).length := by rw [h]
  rw [String.length_append] at hlen
  have h2 : ("_id" : String).length = 3 := by decide
  have h3 : ("id" : String).length = 2 := by decide
  omega

theorem initRecord_id (name : String) (pkv pe ppk : Option String) (tables : Tables) :
    rget (initRecord name pkv pe ppk tables) "id"
      = some (if optTruthy pkv then pyOptStr pkv else Nat.repr (rowCount tables name)) := by
  by_cases h : optTruthy ppk
  · simp only [initRecord, h, if_true]
    rw [rget_dictInsert_ne _ _ _ _ (Ne.symm (linkKey_ne_id (pyOptStr pe)))]
    exact rget_dictInsert_self _ _ _
  · simp only [initRecord, h, if_false]
    exact rget_dictInsert_self _ _ _

theorem initRecord_id_isSome (name : String) (pkv pe ppk : Option String)
    (tables : Tables) :
    (rget (initRecord name pkv pe ppk tables) "id").isSome = true := by
  rw [initRecord_id]
  rfl

theorem initRecord_link (name : String) (pkv pe ppk : Option String) (tables : Tables)
    (h : optTruthy ppk = true) :
    rget (initRecord name pkv pe ppk tables) (pyOptStr pe ++ "_id")
      = some (pyOptStr ppk) := by
  simp only [initRecord, h, if_true]
  exact rget_dictInsert_self _ _ _

theorem process_elems_nil (node : Node) (name : String) (pkc : Option String)
    (fields : List (String × Config)) (pe ppk : Option String) (tables : Tables) :
    process_elems [] node name pkc fields pe ppk tables = (.ok (), tables) := by
  rw [process_elems]

theorem process_elems_cons_err (e : Elem) (rest : List Elem) (node : Node)
    (name : String) (pkc : Option String) (fields : List (String × Config))
    (pe ppk : Option String) (tables : Tables) (err : PErr)
    (hpk : get_pk node pkc = .error err) :
    process_elems (e :: rest) node name pkc fields pe ppk tables
      = (.error err, tables) := by
  rw [process_elems, hpk]

theorem process_elems_cons_ok (e : Elem) (rest : List Elem) (node : Node)
    (name : String) (pkc : Option String) (fields : List (String × Config))
    (pe ppk : Option String) (tables : Tables) (pkv : Option String)
    (hpk : get_pk node pkc = .ok pkv) :
    process_elems (e :: rest) node name pkc fields pe ppk tables
      = match process_fields e fields (initRecord name pkv pe ppk tables) name pkv tables with
        | (.error err, t1) => (.error err, t1)
        | (.ok srec2, t1) =>
          process_elems rest node name pkc fields pe ppk (t1 ++ [(name, srec2)]) := by
  rw [process_elems, hpk]

theorem process_fields_nil (e : Elem) (record : Record) (entity : String)
    (pkv : Option String) (tables : Tables) :
    process_fields e [] record entity pkv tables = (.ok record, tables) := by
  rw [process_fields]

theorem process_fields_cons (e : Elem) (p : String) (c : Config)
    (rest : List (String × Config)) (record : Record) (entity : String)
    (pkv : Option String) (tables : Tables) :
    process_fields e ((p, c) :: rest) record entity pkv tables
      = match process_path (.sub e) p c record (some entity) pkv tables with
        | (.error err, t1) => (.error err, t1)
        | (.ok r1, t1) => process_fields e rest r1 entity pkv t1 := by
  rw [process_fields]

mutual
theorem pp_frame (node : Node) (path : String) (cfg : Config) (record : Record)
    (pe ppk : Option String) (tables : Tables) :
    (∃ Δ, (process_path node path cfg record pe ppk tables).2 = tables ++ Δ
      ∧ ∀ pr ∈ Δ, pr.1 ∈ deepNames cfg ∧ (rget pr.2 "id").isSome = true)
    ∧ (∀ r2, (process_path node path cfg record pe ppk tables).1 = .ok r2 →
        (∀ q, q ∉ writeCols cfg → rget r2 q = rget record q)
        ∧ (∀ q, (rget record q).isSome = true → (rget r2 q).isSome = true)) := by
  cases cfg with
  | scalar s =>
    obtain ⟨h2, h1⟩ := pp_scalar_char node path s record pe ppk tables
    constructor
    · exact ⟨[], by simp [h2], by simp⟩
    · intro r2 hok
      rcases h1 r2 hok with rfl | ⟨v, rfl⟩
      · exact ⟨fun q _ => rfl, fun q h => h⟩
      · constructor
        · intro q hq
          apply rget_dictInsert_ne
          simpa [writeCols] using hq
        · intro q h
          exact rget_dictInsert_isSome _ _ _ _ h
  | entity name pkc fields =>
    constructor
    · obtain ⟨Δ, hΔ, hprop⟩ :=
        pe_frame (getElems node path) node name pkc fields pe ppk tables
      refine ⟨Δ, ?_, ?_⟩
      · rw [pp_entity_snd]
        exact hΔ
      · intro pr hpr
        obtain ⟨hn, hid⟩ := hprop pr hpr
        refine ⟨?_, hid⟩
        simp only [deepNames, List.mem_cons]
        exact hn
    · intro r2 hok
      have hr : r2 = record := by
        rw [process_path] at hok
        rcases h : process_elems (getElems node path) node name pkc fields pe ppk tables
          with ⟨res, t1⟩
        rw [h] at hok
        cases res with
        | error err => simp at hok
        | ok u => simpa using hok.symm
      subst hr
      exact ⟨fun q _ => rfl, fun q h => h⟩
termination_by (sizeOf cfg, 0)
decreasing_by
  all_goals simp [Prod.lex_iff]
  all_goals omega

theorem pe_frame (elems : List Elem) (node : Node) (name : String)
    (pkc : Option String) (fields : List (String × Config))
    (pe ppk : Option String) (tables : Tables) :
    ∃ Δ, (process_elems elems node name pkc fields pe ppk tables).2 = tables ++ Δ
      ∧ ∀ pr ∈ Δ, (pr.1 = name ∨ pr.1 ∈ deepNamesFields fields)
          ∧ (rget pr.2 "id").isSome = true := by
  cases elems with
  | nil => exact ⟨[], by rw [process_elems_nil]; simp, by simp⟩
  | cons e rest =>
    cases hpk : get_pk node pkc with
    | error err =>
      refine ⟨[], ?_, by simp⟩
      rw [process_elems_cons_err _ _ _ _ _ _ _ _ _ _ hpk]
      simp
    | ok pkv =>
      rcases hf : process_fields e fields (initRecord name pkv pe ppk tables) name pkv tables
        with ⟨fres, t1⟩
      obtain ⟨⟨Δf, hΔf, hpropf⟩, hrecf⟩ :=
        pf_frame e fields (initRecord name pkv pe ppk tables) name pkv tables
      rw [hf] at hΔf hrecf
      simp only at hΔf hrecf
      cases fres with
      | error err =>
        refine ⟨Δf, ?_, ?_⟩
        · rw [process_elems_cons_ok _ _ _ _ _ _ _ _ _ _ hpk, hf]
          exact hΔf
        · intro pr hpr
          exact ⟨Or.inr (hpropf pr hpr).1, (hpropf pr hpr).2⟩
      | ok srec2 =>
        obtain ⟨Δr, hΔr, hpropr⟩ :=
          pe_frame rest node name pkc fields pe ppk (t1 ++ [(name, srec2)])
        refine ⟨Δf ++ [(name, srec2)] ++ Δr, ?_, ?_⟩
        · rw [process_elems_cons_ok _ _ _ _ _ _ _ _ _ _ hpk, hf]
          show (process_elems rest node name pkc fields pe ppk
            (t1 ++ [(name, srec2)])).2 = tables ++ (Δf ++ [(name, srec2)] ++ Δr)
          rw [hΔr, hΔf]
          simp [List.append_assoc]
        · intro pr hpr
          simp only [List.append_assoc, List.mem_append, List.mem_cons,
            List.mem_singleton] at hpr
          rcases hpr with h | h | h
          · exact ⟨Or.inr (hpropf pr h).1, (hpropf pr h).2⟩
          · rcases h with h | h
            · subst h
              refine ⟨Or.inl rfl, ?_⟩
              have hid := initRecord_id_isSome name pkv pe ppk tables
              exact (hrecf srec2 rfl).2 "id" hid
            · simp at h
          · exact hpropr pr h
termination_by (sizeOf fields, elems.length + 1)
decreasing_by
  all_goals simp [Prod.lex_iff]
  all_goals omega

theorem pf_frame (e : Elem) (fields : List (String × Config)) (record : Record)
    (entity : String) (pkv : Option String) (tables : Tables) :
    (∃ Δ, (process_fields e fields record entity pkv tables).2 = tables ++ Δ
      ∧ ∀ pr ∈ Δ, pr.1 ∈ deepNamesFields fields ∧ (rget pr.2 "id").isSome = true)
    ∧ (∀ r2, (process_fields e fields record entity pkv tables).1 = .ok r2 →
        (∀ q, q ∉ writeColsFields fields → rget r2 q = rget record q)
        ∧ (∀ q, (rget record q).isSome = true → (rget r2 q).isSome = true)) := by
  cases fields with
  | nil =>
    rw [process_fields_nil]
    refine ⟨⟨[], by simp, by simp⟩, ?_⟩
    intro r2 h
    simp only [Except.ok.injEq] at h
    subst h
    exact ⟨fun q _ => rfl, fun q h => h⟩
  | cons pc rest =>
    obtain ⟨p, c⟩ := pc
    rw [process_fields_cons]
    rcases hp : process_path (.sub e) p c record (some entity) pkv tables
      with ⟨pres, t1⟩
    obtain ⟨⟨Δ1, hΔ1, hprop1⟩, hrec1⟩ :=
      pp_frame (.sub e) p c record (some entity) pkv tables
    rw [hp] at hΔ1 hrec1
    simp only at hΔ1 hrec1
    cases pres with
    | error err =>
      constructor
      · refine ⟨Δ1, by simpa using hΔ1, ?_⟩
        intro pr hpr
        refine ⟨?_, (hprop1 pr hpr).2⟩
        simp only [deepNamesFields, List.mem_append]
        exact Or.inl (hprop1 pr hpr).1
      · intro r2 h
        simp at h
    | ok r1 =>
      obtain ⟨⟨Δ2, hΔ2, hprop2⟩, hrec2⟩ := pf_frame e rest r1 entity pkv t1
      constructor
      · refine ⟨Δ1 ++ Δ2, ?_, ?_⟩
        · show (process_fields e rest r1 entity pkv t1).2 = tables ++ (Δ1 ++ Δ2)
          rw [hΔ2, hΔ1]
          simp [List.append_assoc]
        · intro pr hpr
          simp only [List.mem_append] at hpr
          rcases hpr with h | h
          · refine ⟨?_, (hprop1 pr h).2⟩
            simp only [deepNamesFields, List.mem_append]
            exact Or.inl (hprop1 pr h).1
          · refine ⟨?_, (hprop2 pr h).2⟩
            simp only [deepNamesFields, List.mem_append]
            exact Or.inr (hprop2 pr h).1
      · intro r2 hok
        have hok2 : (process_fields e rest r1 entity pkv t1).1 = .ok r2 := hok
        obtain ⟨ha, hb⟩ := hrec2 r2 hok2
        obtain ⟨hc, hd⟩ := hrec1 r1 rfl
        constructor
        · intro q hq
          simp only [writeColsFields, List.mem_append] at hq
          push_neg at hq
          rw [ha q hq.2]
          exact hc q hq.1
        · intro q h
          exact hb q (hd q h)
termination_by (sizeOf fields, 0)
decreasing_by
  all_goals simp [Prod.lex_iff]
  all_goals omega
end

theorem pd_frame (cfg : List (String × Config)) (doc : Elem) (tables : Tables) :
    ∃ Δ, (process_doc cfg doc tables).2 = tables ++ Δ
      ∧ ∀ pr ∈ Δ, (rget pr.2 "id").isSome = true := by
  induction cfg generalizing tables with
  | nil => exact ⟨[], by rw [process_doc]; simp, by simp⟩
  | cons pc rest ih =>
    obtain ⟨p, c⟩ := pc
    rw [process_doc]
    rcases hp : process_path (.root doc) p c [] none none tables with ⟨pres, t1⟩
    obtain ⟨⟨Δ1, hΔ1, hprop1⟩, _⟩ := pp_frame (.root doc) p c [] none none tables
    rw [hp] at hΔ1
    simp only at hΔ1
    cases pres with
    | error err => exact ⟨Δ1, by simpa using hΔ1, fun pr h => (hprop1 pr h).2⟩
    | ok u =>
      obtain ⟨Δ2, hΔ2, hprop2⟩ := ih t1
      refine ⟨Δ1 ++ Δ2, ?_, ?_⟩
      · show (process_doc rest doc t1).2 = tables ++ (Δ1 ++ Δ2)
        rw [hΔ2, hΔ1]
        simp [List.append_assoc]
      · intro pr hpr
        rcases List.mem_append.mp hpr with h | h
        · exact (hprop1 pr h).2
        · exact hprop2 pr h

/-- Synthetic-key correctness for one entity name: the row at (zero-based)
position `i` of that entity's accumulated sequence carries `id = i`. -/
def SynthOk (E : String) (t : Tables) : Prop :=
  ∀ i, i < (rowsOf t E).length →
    rget ((rowsOf t E).getD i []) "id" = some (Nat.repr i)

theorem rowsOf_append (t Δ : Tables) (E : String) :
    rowsOf (t ++ Δ) E = rowsOf t E ++ rowsOf Δ E := by
  simp [rowsOf, List.filter_append]

theorem rowCount_eq (t : Tables) (E : String) :
    rowCount t E = (rowsOf t E).length := by
  simp [rowCount, rowsOf]

theorem rowsOf_eq_nil (Δ : Tables) (E : String)
    (h : ∀ pr ∈ Δ, pr.1 ≠ E) : rowsOf Δ E = [] := by
  induction Δ with
  | nil => simp [rowsOf]
  | cons pr rest ih =>
    have h1 : pr.1 ≠ E := h pr (by simp)
    have h2 := ih (fun q hq => h q (by simp [hq]))
    simp only [rowsOf, List.filter_cons] at h2 ⊢
    simp [h1, h2]

theorem synthOk_nil (E : String) : SynthOk E [] := by
  intro i h
  simp [rowsOf] at h

theorem synthOk_append_nil (E : String) (t Δ : Tables) (ht : SynthOk E t)
    (hΔ : rowsOf Δ E = []) : SynthOk E (t ++ Δ) := by
  intro i h
  rw [rowsOf_append, hΔ, List.append_nil] at h ⊢
  exact ht i h

theorem synthOk_snoc (E : String) (t : Tables) (r : Record) (ht : SynthOk E t)
    (hr : rget r "id" = some (Nat.repr (rowsOf t E).length)) :
    SynthOk E (t ++ [(E, r)]) := by
  intro i h
  have hE : rowsOf [(E, r)] E = [r] := by simp [rowsOf]
  rw [rowsOf_append, hE] at h ⊢
  rcases Nat.lt_or_ge i (rowsOf t E).length with h2 | h2
  · rw [List.getD_append _ _ _ _ h2]
    exact ht i h2
  · have hi : i = (rowsOf t E).length := by
      simp only [List.length_append, List.length_singleton] at h
      omega
    subst hi
    rw [List.getD_append_right _ _ _ _ h2]
    simpa using hr

theorem get_pk_nonTruthy (node : Node) (pkc : Option String)
    (h : optTruthy pkc = false) : get_pk node pkc = .ok none := by
  cases pkc with
  | none => rw [get_pk]
  | some p =>
    simp only [optTruthy] at h
    rw [get_pk]
    simp [h]

mutual
/-- Side condition for synthetic-key monotonicity of entity name `E`: every
rule for `E` has a falsy `pk`, no rule for `E` nested beneath it, and no
field writing a column literally named `id`. -/
def okForE (E : String) : Config → Bool
  | .scalar _ => true
  | .entity n pkc fs =>
    (if n = E then
       !optTruthy pkc && !(decide (E ∈ deepNamesFields fs))
         && !(decide ("id" ∈ writeColsFields fs))
     else true)
    && okFieldsForE E fs
termination_by cfg => sizeOf cfg
decreasing_by
  all_goals simp
  all_goals omega

/-- Pointwise `okForE` over a field list. -/
def okFieldsForE (E : String) : List (String × Config) → Bool
  | [] => true
  | (_, c) :: rest => okForE E c && okFieldsForE E rest
termination_by fs => sizeOf fs
decreasing_by
  all_goals simp
  all_goals omega
end

mutual
theorem pp_inv (E : String) (node : Node) (path : String) (cfg : Config)
    (record : Record) (pe ppk : Option String) (tables : Tables) :
    okForE E cfg = true → SynthOk E tables →
      SynthOk E (process_path node path cfg record pe ppk tables).2 := by
  cases cfg with
  | scalar s =>
    intro _ ht
    rw [(pp_scalar_char node path s record pe ppk tables).1]
    exact ht
  | entity name pkc fields =>
    intro hok ht
    rw [pp_entity_snd]
    rw [okForE] at hok
    simp only [Bool.and_eq_true] at hok
    refine pe_inv E (getElems node path) node name pkc fields pe ppk tables ?_ hok.2 ht
    intro hE
    subst hE
    have h1 := hok.1
    simp only [if_true, ite_true, if_pos rfl, Bool.and_eq_true, Bool.not_eq_true',
      Bool.not_eq_true, decide_eq_false_iff_not] at h1
    exact ⟨h1.1.1, h1.1.2, h1.2⟩
termination_by (sizeOf cfg, 0)
decreasing_by
  all_goals simp [Prod.lex_iff]
  all_goals omega

theorem pe_inv (E : String) (elems : List Elem) (node : Node) (name : String)
    (pkc : Option String) (fields : List (String × Config))
    (pe ppk : Option String) (tables : Tables) :
    (name = E → optTruthy pkc = false ∧ E ∉ deepNamesFields fields
      ∧ "id" ∉ writeColsFields fields) →
    okFieldsForE E fields = true → SynthOk E tables →
      SynthOk E (process_elems elems node name pkc fields pe ppk tables).2 := by
  cases elems with
  | nil =>
    intro _ _ ht
    rw [process_elems_nil]
    exact ht
  | cons e rest =>
    intro hname hfok ht
    cases hpk : get_pk node pkc with
    | error err =>
      rw [process_elems_cons_err _ _ _ _ _ _ _ _ _ _ hpk]
      exact ht
    | ok pkv =>
      rcases hf : process_fields e fields (initRecord name pkv pe ppk tables) name pkv tables
        with ⟨fres, t1⟩
      have ht1 : SynthOk E t1 := by
        have h := pf_inv E e fields (initRecord name pkv pe ppk tables) name pkv tables hfok ht
        rw [hf] at h
        exact h
      cases fres with
      | error err =>
        rw [process_elems_cons_ok _ _ _ _ _ _ _ _ _ _ hpk, hf]
        exact ht1
      | ok srec2 =>
        rw [process_elems_cons_ok _ _ _ _ _ _ _ _ _ _ hpk, hf]
        show SynthOk E
          (process_elems rest node name pkc fields pe ppk (t1 ++ [(name, srec2)])).2
        refine pe_inv E rest node name pkc fields pe ppk _ hname hfok ?_
        by_cases hE : name = E
        · obtain ⟨hpkf, hnest, hid⟩ := hname hE
          subst hE
          have hpk2 : pkv = none := by
            rw [get_pk_nonTruthy node pkc hpkf] at hpk
            exact (Except.ok.inj hpk).symm
          subst hpk2
          obtain ⟨⟨Δf, hΔf, hpropf⟩, hrecf⟩ :=
            pf_frame e fields (initRecord name none pe ppk tables) name none tables
          rw [hf] at hΔf hrecf
          simp only at hΔf hrecf
          have hrows : rowsOf t1 name = rowsOf tables name := by
            rw [hΔf, rowsOf_append, rowsOf_eq_nil Δf name, List.append_nil]
            intro pr hpr hEq
            exact hnest (hEq ▸ (hpropf pr hpr).1)
          refine synthOk_snoc name t1 srec2 ht1 ?_
          rw [hrows]
          have hpres := (hrecf srec2 rfl).1 "id" hid
          rw [hpres, initRecord_id]
          simp only [optTruthy, Bool.false_eq_true, if_false]
          rw [rowCount_eq]
        · refine synthOk_append_nil E t1 _ ht1 ?_
          refine rowsOf_eq_nil _ _ ?_
          intro pr hpr
          simp only [List.mem_singleton] at hpr
          subst hpr
          exact hE
termination_by (sizeOf fields, elems.length + 1)
decreasing_by
  all_goals simp [Prod.lex_iff]
  all_goals omega

theorem pf_inv (E : String) (e : Elem) (fields : List (String × Config))
    (record : Record) (entity : String) (pkv : Option String) (tables : Tables) :
    okFieldsForE E fields = true → SynthOk E tables →
      SynthOk E (process_fields e fields record entity pkv tables).2 := by
  cases fields with
  | nil =>
    intro _ ht
    rw [process_fields_nil]
    exact ht
  | cons pc rest =>
    intro hfok ht
    obtain ⟨p, c⟩ := pc
    rw [okFieldsForE] at hfok
    simp only [Bool.and_eq_true] at hfok
    rw [process_fields_cons]
    rcases hp : process_path (.sub e) p c record (some entity) pkv tables with ⟨pres, t1⟩
    have ht1 : SynthOk E t1 := by
      have h := pp_inv E (.sub e) p c record (some entity) pkv tables hfok.1 ht
      rw [hp] at h
      exact h
    cases pres with
    | error err => exact ht1
    | ok r1 => exact pf_inv E e rest r1 entity pkv t1 hfok.2 ht1
termination_by (sizeOf fields, 0)
decreasing_by
  all_goals simp [Prod.lex_iff]
  all_goals omega
end

theorem pd_inv (E : String) (cfg : List (String × Config)) (doc : Elem) :
    ∀ tables, (∀ pr ∈ cfg, okForE E pr.2 = true) → SynthOk E tables →
      SynthOk E (process_doc cfg doc tables).2 := by
  induction cfg with
  | nil =>
    intro tables _ ht
    rw [process_doc]
    exact ht
  | cons pc rest ih =>
    intro tables hok ht
    obtain ⟨p, c⟩ := pc
    rw [process_doc]
    rcases hp : process_path (.root doc) p c [] none none tables with ⟨pres, t1⟩
    have ht1 : SynthOk E t1 := by
      have h := pp_inv E (.root doc) p c [] none none tables (hok (p, c) (by simp)) ht
      rw [hp] at h
      exact h
    cases pres with
    | error err => exact ht1
    | ok u => exact ih t1 (fun pr h => hok pr (by simp [h])) ht1

theorem run_inv (E : String) (cfg : List (String × Config)) (docs : List Elem)
    (hok : ∀ pr ∈ cfg, okForE E pr.2 = true) :
    ∀ tables, SynthOk E tables → SynthOk E (run_docs cfg docs tables) := by
  induction docs with
  | nil =>
    intro tables ht
    rw [run_docs]
    exact ht
  | cons d rest ih =>
    intro tables ht
    rw [run_docs]
    exact ih _ (pd_inv E cfg d tables hok ht)

theorem pe_link (elems : List Elem) (node : Node) (name : String)
    (pkc : Option String) (fields : List (String × Config))
    (pe : Option String) (P : String)
    (hP : strTruthy P = true)
    (hsh : (pyOptStr pe ++ "_id") ∉ writeColsFields fields)
    (hnest : name ∉ deepNamesFields fields) :
    ∀ tables, ∃ Δ,
      (process_elems elems node name pkc fields pe (some P) tables).2 = tables ++ Δ
      ∧ ∀ pr ∈ Δ, pr.1 = name → rget pr.2 (pyOptStr pe ++ "_id") = some P := by
  induction elems with
  | nil =>
    intro tables
    exact ⟨[], by rw [process_elems_nil]; simp, by simp⟩
  | cons e rest ih =>
    intro tables
    cases hpk : get_pk node pkc with
    | error err =>
      refine ⟨[], ?_, by simp⟩
      rw [process_elems_cons_err _ _ _ _ _ _ _ _ _ _ hpk]
      simp
    | ok pkv =>
      rcases hf : process_fields e fields (initRecord name pkv pe (some P) tables) name pkv tables
        with ⟨fres, t1⟩
      obtain ⟨⟨Δf, hΔf, hpropf⟩, hrecf⟩ :=
        pf_frame e fields (initRecord name pkv pe (some P) tables) name pkv tables
      rw [hf] at hΔf hrecf
      simp only at hΔf hrecf
      have hvac : ∀ pr ∈ Δf, pr.1 = name → rget pr.2 (pyOptStr pe ++ "_id") = some P := by
        intro pr hpr hEq
        exact absurd (hEq ▸ (hpropf pr hpr).1) hnest
      cases fres with
      | error err =>
        refine ⟨Δf, ?_, hvac⟩
        rw [process_elems_cons_ok _ _ _ _ _ _ _ _ _ _ hpk, hf]
        exact hΔf
      | ok srec2 =>
        obtain ⟨Δr, hΔr, hpropr⟩ := ih (t1 ++ [(name, srec2)])
        refine ⟨Δf ++ [(name, srec2)] ++ Δr, ?_, ?_⟩
        · rw [process_elems_cons_ok _ _ _ _ _ _ _ _ _ _ hpk, hf]
          show (process_elems rest node name pkc fields pe (some P)
            (t1 ++ [(name, srec2)])).2 = tables ++ (Δf ++ [(name, srec2)] ++ Δr)
          rw [hΔr, hΔf]
          simp [List.append_assoc]
        · intro pr hpr
          simp only [List.append_assoc, List.mem_append, List.mem_cons,
            List.mem_singleton] at hpr
          rcases hpr with h | h | h
          · exact hvac pr h
          · rcases h with h | h
            · subst h
              intro _
              have hini : rget (initRecord name pkv pe (some P) tables)
                  (pyOptStr pe ++ "_id") = some P := by
                have := initRecord_link name pkv pe (some P) tables
                  (by simpa [optTruthy] using hP)
                simpa [pyOptStr] using this
              rw [(hrecf srec2 rfl).1 (pyOptStr pe ++ "_id") hsh]
              exact hini
            · simp at h
          · exact hpropr pr h

theorem get_pk_card (node : Node) (p : String) (hp : strTruthy p = true)
    (hcard : (nodeFind node p).length ≠ 1) :
    get_pk node (some p) = .error .violation := by
  rw [get_pk]
  simp only [hp, if_true]
  cases h : nodeFind node p with
  | nil => rfl
  | cons e rest =>
    cases rest with
    | nil => exact absurd (by rw [h]; rfl) hcard
    | cons e2 rest2 => rfl

theorem get_pk_single (node : Node) (p : String) (e0 : Elem)
    (hp : strTruthy p = true) (h1 : nodeFind node p = [e0]) :
    get_pk node (some p) = .ok (some (get_text e0)) := by
  rw [get_pk]
  simp only [hp, if_true, h1]

theorem pe_natural (elems : List Elem) (node : Node) (name p : String)
    (fields : List (String × Config)) (pe ppk : Option String) (e0 : Elem)
    (hp : strTruthy p = true) (h1 : nodeFind node p = [e0])
    (htxt : strTruthy (get_text e0) = true)
    (hsh : "id" ∉ writeColsFields fields)
    (hnest : name ∉ deepNamesFields fields) :
    ∀ tables, ∃ Δ,
      (process_elems elems node name (some p) fields pe ppk tables).2 = tables ++ Δ
      ∧ ∀ pr ∈ Δ, pr.1 = name → rget pr.2 "id" = some (get_text e0) := by
  have hpk : get_pk node (some p) = .ok (some (get_text e0)) :=
    get_pk_single node p e0 hp h1
  induction elems with
  | nil =>
    intro tables
    exact ⟨[], by rw [process_elems_nil]; simp, by simp⟩
  | cons e rest ih =>
    intro tables
    rcases hf : process_fields e fields
      (initRecord name (some (get_text e0)) pe ppk tables) name (some (get_text e0)) tables
      with ⟨fres, t1⟩
    obtain ⟨⟨Δf, hΔf, hpropf⟩, hrecf⟩ :=
      pf_frame e fields (initRecord name (some (get_text e0)) pe ppk tables)
        name (some (get_text e0)) tables
    rw [hf] at hΔf hrecf
    simp only at hΔf hrecf
    have hvac : ∀ pr ∈ Δf, pr.1 = name → rget pr.2 "id" = some (get_text e0) := by
      intro pr hpr hEq
      exact absurd (hEq ▸ (hpropf pr hpr).1) hnest
    have hini : rget (initRecord name (some (get_text e0)) pe ppk tables) "id"
        = some (get_text e0) := by
      rw [initRecord_id]
      simp [optTruthy, htxt, pyOptStr]
    cases fres with
    | error err =>
      refine ⟨Δf, ?_, hvac⟩
      rw [process_elems_cons_ok _ _ _ _ _ _ _ _ _ _ hpk, hf]
      exact hΔf
    | ok srec2 =>
      obtain ⟨Δr, hΔr, hpropr⟩ := ih (t1 ++ [(name, srec2)])
      refine ⟨Δf ++ [(name, srec2)] ++ Δr, ?_, ?_⟩
      · rw [process_elems_cons_ok _ _ _ _ _ _ _ _ _ _ hpk, hf]
        show (process_elems rest node name (some p) fields pe ppk
          (t1 ++ [(name, srec2)])).2 = tables ++ (Δf ++ [(name, srec2)] ++ Δr)
        rw [hΔr, hΔf]
        simp [List.append_assoc]
      · intro pr hpr
        simp only [List.append_assoc, List.mem_append, List.mem_cons,
          List.mem_singleton] at hpr
        rcases hpr with h | h | h
        · exact hvac pr h
        · rcases h with h | h
          · subst h
            intro _
            rw [(hrecf srec2 rfl).1 "id" hsh]
            exact hini
          · simp at h
        · exact hpropr pr h

theorem mem_dedupKeys (x : String) (l : List String) : x ∈ dedupKeys l ↔ x ∈ l := by
  induction l using dedupKeys.induct with
  | case1 => simp [dedupKeys]
  | case2 y ys ih =>
    rw [dedupKeys]
    simp only [List.mem_cons, ih, List.mem_filter]
    constructor
    · rintro (rfl | ⟨h, _⟩)
      · exact Or.inl rfl
      · exact Or.inr h
    · rintro (rfl | h)
      · exact Or.inl rfl
      · by_cases hxy : x = y
        · exact Or.inl hxy
        · exact Or.inr ⟨h, by simpa using hxy⟩

theorem dedupKeys_append_dedup (a b : List String) :
    dedupKeys (dedupKeys a ++ b) = dedupKeys (a ++ b) := by
  match a with
  | [] => rw [dedupKeys]
  | x :: xs =>
    have hfil : (dedupKeys (xs.filter (fun y => y ≠ x))).filter (fun y => y ≠ x)
        = dedupKeys (xs.filter (fun y => y ≠ x)) := by
      apply List.filter_eq_self.mpr
      intro y hy
      have hy2 : y ∈ xs.filter (fun y => y ≠ x) := (mem_dedupKeys y _).mp hy
      exact (List.mem_filter.mp hy2).2
    calc dedupKeys (dedupKeys (x :: xs) ++ b)
        = dedupKeys (x :: (dedupKeys (xs.filter (fun y => y ≠ x)) ++ b)) := by
          rw [dedupKeys, List.cons_append]
      _ = x :: dedupKeys ((dedupKeys (xs.filter (fun y => y ≠ x)) ++ b).filter
            (fun y => y ≠ x)) := by
          rw [dedupKeys]
      _ = x :: dedupKeys (dedupKeys (xs.filter (fun y => y ≠ x))
            ++ b.filter (fun y => y ≠ x)) := by
          rw [List.filter_append, hfil]
      _ = x :: dedupKeys (xs.filter (fun y => y ≠ x) ++ b.filter (fun y => y ≠ x)) := by
          rw [dedupKeys_append_dedup (xs.filter (fun y => y ≠ x))
            (b.filter (fun y => y ≠ x))]
      _ = x :: dedupKeys ((xs ++ b).filter (fun y => y ≠ x)) := by
          rw [List.filter_append]
      _ = dedupKeys ((x :: xs) ++ b) := by
          rw [List.cons_append, dedupKeys]
termination_by a.length
decreasing_by
  simp
  have hfl := List.length_filter_le (fun y => !decide (y = x)) xs
  omega

theorem fupdate_self (m : FMap) (k : String) (v : List String) :
    fupdate m k v k = v := by
  simp [fupdate]

theorem fupdate_ne (m : FMap) (k : String) (v : List String) (x : String)
    (h : x ≠ k) : fupdate m k v x = m x := by
  simp [fupdate, h]

theorem af_scalar_eq (s : String) (fns : FMap) (acc : List String) (po : Option String) :
    add_fieldnames (.scalar s) fns acc po = (fns, acc ++ [fnCol s]) := by
  rw [add_fieldnames]

theorem af_entity_eq (name : String) (pkc : Option String)
    (fields : List (String × Config)) (fns : FMap) (acc : List String)
    (po : Option String) :
    add_fieldnames (.entity name pkc fields) fns acc po
      = (fupdate (add_fields fields fns (afAcc0 pkc po) name).1 name
          (dedupKeys ((add_fields fields fns (afAcc0 pkc po) name).1 name
            ++ (add_fields fields fns (afAcc0 pkc po) name).2)), acc) := by
  rw [add_fieldnames]

theorem add_fields_nil (fns : FMap) (acc : List String) (entity : String) :
    add_fields [] fns acc entity = (fns, acc) := by
  rw [add_fields]

theorem add_fields_cons (q : String) (c : Config) (rest : List (String × Config))
    (fns : FMap) (acc : List String) (entity : String) :
    add_fields ((q, c) :: rest) fns acc entity
      = add_fields rest (add_fieldnames c fns acc (some entity)).1
          (add_fieldnames c fns acc (some entity)).2 entity := by
  rw [add_fields]

/-- Column names an entity's own field list contributes to its table, in
declaration order (nested entity fields contribute to their own tables). -/
def localCols : List (String × Config) → List String
  | [] => []
  | (_, c) :: rest =>
    (match c with
     | .scalar s => [fnCol s]
     | .entity _ _ _ => []) ++ localCols rest

theorem afs_acc (fields : List (String × Config)) :
    ∀ fns acc entity, (add_fields fields fns acc entity).2 = acc ++ localCols fields := by
  induction fields with
  | nil =>
    intro fns acc entity
    rw [add_fields_nil]
    simp [localCols]
  | cons pc rest ih =>
    intro fns acc entity
    obtain ⟨q, c⟩ := pc
    rw [add_fields_cons]
    cases c with
    | scalar s =>
      rw [af_scalar_eq]
      rw [ih]
      simp [localCols]
    | entity n2 pk2 fs2 =>
      rw [af_entity_eq]
      rw [ih]
      simp [localCols]

mutual
theorem af_other (cfg : Config) :
    ∀ (fns : FMap) (acc : List String) (po : Option String) (n : String),
      n ∉ deepNames cfg → (add_fieldnames cfg fns acc po).1 n = fns n := by
  cases cfg with
  | scalar s =>
    intro fns acc po n _
    rw [af_scalar_eq]
  | entity name pkc fields =>
    intro fns acc po n hn
    rw [af_entity_eq]
    simp only [deepNames, List.mem_cons] at hn
    push_neg at hn
    show fupdate (add_fields fields fns (afAcc0 pkc po) name).1 name _ n = fns n
    rw [fupdate]
    simp only [if_neg hn.1]
    exact afs_other fields fns (afAcc0 pkc po) name n hn.2
termination_by sizeOf cfg
decreasing_by
  all_goals simp
  all_goals omega

theorem afs_other (fields : List (String × Config)) :
    ∀ (fns : FMap) (acc : List String) (entity n : String),
      n ∉ deepNamesFields fields → (add_fields fields fns acc entity).1 n = fns n := by
  cases fields with
  | nil =>
    intro fns acc entity n _
    rw [add_fields_nil]
  | cons pc rest =>
    intro fns acc entity n hn
    obtain ⟨q, c⟩ := pc
    simp only [deepNamesFields, List.mem_append] at hn
    push_neg at hn
    rw [add_fields_cons]
    rw [afs_other rest _ _ entity n hn.2]
    exact af_other c fns acc (some entity) n hn.1
termination_by sizeOf fields
decreasing_by
  all_goals simp
  all_goals omega
end

/-- Entity names occurring strictly below a top-level rule (its nested
entity rules). -/
def nestedNames : Config → List String
  | .scalar _ => []
  | .entity _ _ fs => deepNamesFields fs

/-- Column list one top-level entry point contributes for its entity per
the specification's words: `id` first when the entity declares a (truthy)
primary-key path, then the scalar columns in field-declaration order; a
top-level entity has no parent, hence no parent-link column. -/
def specEntryCols : Config → List String
  | .scalar _ => []
  | .entity _ pkc fields => (if optTruthy pkc then ["id"] else []) ++ localCols fields

/-- Concatenation, in config order, of the column lists contributed by the
top-level entry points declaring entity `E` — the specification's
first-seen-order union is its order-preserving de-duplication. -/
def specTopCols (cfg : List (String × Config)) (E : String) : List String :=
  (cfg.map (fun pr =>
    match pr.2 with
    | .scalar _ => []
    | .entity n pkc fields =>
      if n = E then specEntryCols (.entity n pkc fields) else [])).flatten

theorem afAcc0_none (pkc : Option String) :
    afAcc0 pkc none = if optTruthy pkc then ["id"] else [] := by
  simp [afAcc0, optTruthy]

theorem gf_go_inv (cfg : List (String × Config)) (E : String) :
    ∀ (m : FMap) (L : List String), m E = dedupKeys L →
      (∀ pr ∈ cfg, E ∉ nestedNames pr.2) →
      gf_go cfg m E = dedupKeys (L ++ specTopCols cfg E) := by
  induction cfg with
  | nil =>
    intro m L hm _
    rw [gf_go]
    simp only [specTopCols, List.map_nil, List.flatten_nil, List.append_nil]
    exact hm
  | cons pc rest ih =>
    intro m L hm hnest
    obtain ⟨q, c⟩ := pc
    rw [gf_go]
    have hnest1 : E ∉ nestedNames c := hnest (q, c) (by simp)
    have hnestr : ∀ pr ∈ rest, E ∉ nestedNames pr.2 :=
      fun pr h => hnest pr (by simp [h])
    cases c with
    | scalar s =>
      have hm2 : (add_fieldnames (.scalar s) m [] none).1 E = dedupKeys L := by
        rw [af_scalar_eq]
        exact hm
      rw [ih _ _ hm2 hnestr]
      simp [specTopCols]
    | entity n pk2 fs2 =>
      simp only [nestedNames] at hnest1
      by_cases hn : n = E
      · subst hn
        have hres1 : (add_fields fs2 m (afAcc0 pk2 none) n).1 n = m n :=
          afs_other fs2 m (afAcc0 pk2 none) n n hnest1
        have hres2 : (add_fields fs2 m (afAcc0 pk2 none) n).2
            = specEntryCols (.entity n pk2 fs2) := by
          rw [afs_acc, afAcc0_none]
          simp [specEntryCols]
        have hm2 : (add_fieldnames (.entity n pk2 fs2) m [] none).1 n
            = dedupKeys (L ++ specEntryCols (.entity n pk2 fs2)) := by
          rw [af_entity_eq]
          show fupdate (add_fields fs2 m (afAcc0 pk2 none) n).1 n
              (dedupKeys ((add_fields fs2 m (afAcc0 pk2 none) n).1 n
                ++ (add_fields fs2 m (afAcc0 pk2 none) n).2)) n
            = dedupKeys (L ++ specEntryCols (.entity n pk2 fs2))
          rw [fupdate_self, hres1, hm, hres2, dedupKeys_append_dedup]
        rw [ih _ _ hm2 hnestr]
        have hcols : specTopCols ((q, .entity n pk2 fs2) :: rest) n
            = specEntryCols (.entity n pk2 fs2) ++ specTopCols rest n := by
          simp [specTopCols]
        rw [hcols, List.append_assoc]
      · have hm2 : (add_fieldnames (.entity n pk2 fs2) m [] none).1 E = dedupKeys L := by
          rw [af_other (.entity n pk2 fs2) m [] none E]
          · exact hm
          · simp only [deepNames, List.mem_cons]
            push_neg
            exact ⟨fun h => hn h.symm, hnest1⟩
        rw [ih _ _ hm2 hnestr]
        have hcols : specTopCols ((q, .entity n pk2 fs2) :: rest) E = specTopCols rest E := by
          simp [specTopCols, hn]
        rw [hcols]

/-- C5: a `Text` scalar rule (a plain config string: no leading pipe, no
colon) omits the field without error when zero elements match, sets the
column to the single matched element's normalized text when exactly one
matches, and raises the schema violation (`AssertionError`) when more than
one matches. -/
theorem text_rule (node : Node) (path s : String) (record : Record)
    (pe ppk : Option String) (tables : Tables)
    (hbar : startsBar s = false) (hcolon : hasColon s = false) :
    (getElems node path = [] →
      process_path node path (.scalar s) record pe ppk tables = (.ok record, tables))
    ∧ (∀ e, getElems node path = [e] →
      process_path node path (.scalar s) record pe ppk tables
        = (.ok (dictInsert record s (get_text e)), tables))
    ∧ (2 ≤ (getElems node path).length →
      process_path node path (.scalar s) record pe ppk tables
        = (.error .violation, tables)) := by
  refine ⟨?_, ?_, ?_⟩
  · intro h
    rw [process_path, h]
  · intro e h
    rw [process_path, h]
    simp [hbar, hcolon]
  · intro h
    rw [process_path]
    cases hel : getElems node path with
    | nil =>
      rw [hel] at h
      simp at h
    | cons e rest =>
      cases rest with
      | nil =>
        rw [hel] at h
        simp at h
      | cons e2 r2 => simp [hbar]

/-- Witness for `text_rule`: a single matched element with text
`"  foo   bar "` yields the column value `"foo bar"`. -/
theorem text_rule_witness :
    startsBar "t" = false ∧ hasColon "t" = false
    ∧ getElems (.sub (.mk "r" "" [.mk "p" "  foo   bar " []])) "p"
        = [.mk "p" "  foo   bar " []]
    ∧ process_path (.sub (.mk "r" "" [.mk "p" "  foo   bar " []])) "p"
        (.scalar "t") [] none none [] = (.ok [("t", "foo bar")], []) := by
  have hel : getElems (.sub (.mk "r" "" [.mk "p" "  foo   bar " []])) "p"
      = [.mk "p" "  foo   bar " []] := by
    simp +decide [getElems, findallRel, resolveSegs, pathSegs, splitOnChar,
      childrenTagged, Elem.children, Elem.tag]
  refine ⟨by decide, by decide, hel, ?_⟩
  rw [(text_rule (.sub (.mk "r" "" [.mk "p" "  foo   bar " []])) "p" "t"
    [] none none [] (by decide) (by decide)).2.1 (.mk "p" "  foo   bar " []) hel]
  simp +decide [dictInsert, get_text, normalizeWs, rawText, rawTextList,
    splitWsAux, joinStrs, isWsChar]

/-- C3 counterexample: a `LiteralAssign` rule (config `"f:Y"`) whose path
matches two elements raises the assertion error instead of setting the
column, because the exactly-one assertion precedes the colon branch. -/
theorem literal_assign_two_matches_raises :
    process_path (.sub (.mk "r" "" [.mk "p" "a" [], .mk "p" "b" []])) "p"
      (.scalar "f:Y") [] none none [] = (.error .violation, []) := by
  simp +decide [process_path, getElems, findallRel, resolveSegs, pathSegs,
    splitOnChar, childrenTagged, Elem.children, Elem.tag, startsBar]

/-- C3 amended: a `LiteralAssign` scalar rule (colon config, not
pipe-prefixed) sets its column to the configured value only when exactly
one element matches, regardless of the element's text; zero matches leave
the column silently absent, and two or more matches raise the schema
violation. -/
theorem literal_assign_rule (node : Node) (path s : String) (record : Record)
    (pe ppk : Option String) (tables : Tables)
    (hbar : startsBar s = false) (hcolon : hasColon s = true) :
    (getElems node path = [] →
      process_path node path (.scalar s) record pe ppk tables = (.ok record, tables))
    ∧ (∀ e, getElems node path = [e] →
      process_path node path (.scalar s) record pe ppk tables
        = (.ok (dictInsert record (colonField s) (colonValue s)), tables))
    ∧ (2 ≤ (getElems node path).length →
      process_path node path (.scalar s) record pe ppk tables
        = (.error .violation, tables)) := by
  refine ⟨?_, ?_, ?_⟩
  · intro h
    rw [process_path, h]
  · intro e h
    rw [process_path, h]
    simp [hbar, hcolon]
  · intro h
    rw [process_path]
    cases hel : getElems node path with
    | nil =>
      rw [hel] at h
      simp at h
    | cons e rest =>
      cases rest with
      | nil =>
        rw [hel] at h
        simp at h
      | cons e2 r2 => simp [hbar]

/-- Witness for `literal_assign_rule`: one matched element sets column
`"f"` to `"Y"` whatever the element's own text. -/
theorem literal_assign_rule_witness :
    startsBar "f:Y" = false ∧ hasColon "f:Y" = true
    ∧ getElems (.sub (.mk "r" "" [.mk "p" "whatever" []])) "p"
        = [.mk "p" "whatever" []]
    ∧ process_path (.sub (.mk "r" "" [.mk "p" "whatever" []])) "p"
        (.scalar "f:Y") [] none none [] = (.ok [("f", "Y")], []) := by
  have hel : getElems (.sub (.mk "r" "" [.mk "p" "whatever" []])) "p"
      = [.mk "p" "whatever" []] := by
    simp +decide [getElems, findallRel, resolveSegs, pathSegs, splitOnChar,
      childrenTagged, Elem.children, Elem.tag]
  refine ⟨by decide, by decide, hel, ?_⟩
  rw [(literal_assign_rule (.sub (.mk "r" "" [.mk "p" "whatever" []])) "p" "f:Y"
    [] none none [] (by decide) (by decide)).2.1 (.mk "p" "whatever" []) hel]
  simp +decide [dictInsert, colonField, colonValue, splitOnChar]

/-- C4 counterexample: a `JoinMultiple` rule (config `"|vals"`) matching
zero elements leaves the record untouched — the column is absent, not set
to the empty string. -/
theorem join_zero_matches_column_absent :
    process_path (.sub (.mk "r" "" [])) "p" (.scalar "|vals") [] none none []
      = (.ok [], [])
    ∧ rget [] "vals" = none := by
  constructor
  · simp +decide [process_path, getElems, findallRel, resolveSegs, pathSegs,
      splitOnChar, childrenTagged, Elem.children, Elem.tag]
  · rfl

/-- C4 amended: a `JoinMultiple` scalar rule (pipe-prefixed config) sets
its column to the pipe-joined normalized texts of all matched elements in
document order whenever at least one element matches; with zero matches the
column is absent from the record. -/
theorem join_multiple_rule (node : Node) (path s : String) (record : Record)
    (pe ppk : Option String) (tables : Tables) (hbar : startsBar s = true) :
    (getElems node path = [] →
      process_path node path (.scalar s) record pe ppk tables = (.ok record, tables))
    ∧ (getElems node path ≠ [] →
      process_path node path (.scalar s) record pe ppk tables
        = (.ok (dictInsert record (strTail s)
            (joinStrs "|" ((getElems node path).map get_text))), tables)) := by
  constructor
  · intro h
    rw [process_path, h]
  · intro h
    rw [process_path]
    cases hel : getElems node path with
    | nil => exact absurd hel h
    | cons e rest => simp [hbar, hel]

/-- Witness for `join_multiple_rule`: three matched elements with texts
`a`, `b`, `c` yield the column value `"a|b|c"`. -/
theorem join_multiple_rule_witness :
    startsBar "|vals" = true
    ∧ getElems (.sub (.mk "r" "" [.mk "p" "a" [], .mk "p" "b" [], .mk "p" "c" []])) "p"
        = [.mk "p" "a" [], .mk "p" "b" [], .mk "p" "c" []]
    ∧ process_path (.sub (.mk "r" "" [.mk "p" "a" [], .mk "p" "b" [], .mk "p" "c" []]))
        "p" (.scalar "|vals") [] none none [] = (.ok [("vals", "a|b|c")], []) := by
  have hel : getElems (.sub (.mk "r" "" [.mk "p" "a" [], .mk "p" "b" [], .mk "p" "c" []])) "p"
      = [.mk "p" "a" [], .mk "p" "b" [], .mk "p" "c" []] := by
    simp +decide [getElems, findallRel, resolveSegs, pathSegs, splitOnChar,
      childrenTagged, Elem.children, Elem.tag]
  refine ⟨by decide, hel, ?_⟩
  rw [(join_multiple_rule (.sub (.mk "r" "" [.mk "p" "a" [], .mk "p" "b" [], .mk "p" "c" []]))
    "p" "|vals" [] none none [] (by decide)).2 (by rw [hel]; simp)]
  rw [hel]
  simp +decide [dictInsert, strTail, joinStrs, get_text, normalizeWs, rawText,
    rawTextList, splitWsAux, isWsChar]

/-- C2 counterexample: a nested entity produced under a parent whose key is
synthetic (no `pk` declared, id `"0"`) carries no `P_id` column at all,
because the recursion passes the raw `pk` (here `None`), never the
synthetic key. -/
theorem nested_link_missing_for_synthetic_parent :
    process_doc [("top", .entity "P" none [("c", .entity "C" none [])])]
      (.mk "r" "" [.mk "c" "" []]) []
      = (none, [("C", [("id", "0")]), ("P", [("id", "0")])])
    ∧ rget [("id", "0")] "P_id" = none := by
  constructor
  · simp +decide [process_doc, process_path, process_elems, process_fields,
      get_pk, getElems, nodeFind, findallRel, resolveSegs, pathSegs, splitOnChar,
      childrenTagged, Elem.children, Elem.tag, Node.base, rowCount, optTruthy,
      strTruthy, pyOptStr, dictInsert, initRecord]
  · rfl

/-- C2 amended: a nested entity row carries `<parentEntity>_id` equal to
the parent's key only when that key is natural and truthy (a declared
`primaryKeyPath` resolving to nonempty text); provided no field of the
nested rule shadows the link column and no deeper rule reuses the nested
entity's name, every row the nested rule appends for its entity carries the
link. -/
theorem nested_parent_link (node : Node) (path cname : String)
    (cpk : Option String) (cfields : List (String × Config)) (record : Record)
    (pname P : String) (tables : Tables)
    (hP : strTruthy P = true)
    (hsh : (pname ++ "_id") ∉ writeColsFields cfields)
    (hnest : cname ∉ deepNamesFields cfields) :
    ∃ Δ, (process_path node path (.entity cname cpk cfields) record
        (some pname) (some P) tables).2 = tables ++ Δ
      ∧ ∀ pr ∈ Δ, pr.1 = cname → rget pr.2 (pname ++ "_id") = some P := by
  rw [pp_entity_snd]
  exact pe_link (getElems node path) node cname cpk cfields (some pname) P hP
    hsh hnest tables

/-- Witness for `nested_parent_link`: a nested `C` rule under parent `P`
with natural key `"K1"`. -/
theorem nested_parent_link_witness :
    strTruthy "K1" = true
    ∧ ("P" ++ "_id") ∉ writeColsFields ([] : List (String × Config))
    ∧ "C" ∉ deepNamesFields ([] : List (String × Config))
    ∧ ∃ Δ, (process_path (.sub (.mk "r" "" [.mk "c" "" []])) "c"
        (.entity "C" none []) [] (some "P") (some "K1") []).2 = [] ++ Δ
      ∧ ∀ pr ∈ Δ, pr.1 = "C" → rget pr.2 ("P" ++ "_id") = some "K1" :=
  ⟨by decide, by simp [writeColsFields], by rw [deepNamesFields]; simp,
   nested_parent_link _ _ _ _ _ _ _ _ _ (by decide)
     (by simp [writeColsFields]) (by rw [deepNamesFields]; simp)⟩

/-- C9 counterexample: a declared `pk` path matching exactly one element
whose normalized text is empty does not become the natural key — the falsy
text falls back to the synthetic counter, so the row's id is `"0"`, not the
matched element's normalized text `""`. -/
theorem natural_key_empty_text_falls_back_synthetic :
    get_text (.mk "k" "  " []) = ""
    ∧ process_doc [("top", .entity "P" (some "k") [])]
        (.mk "r" "" [.mk "k" "  " []]) []
        = (none, [("P", [("id", "0")])]) := by
  constructor
  · simp +decide [get_text, normalizeWs, rawText, rawTextList, splitWsAux,
      joinStrs, isWsChar]
  · simp +decide [process_doc, process_path, process_elems, process_fields,
      get_pk, getElems, nodeFind, findallRel, resolveSegs, pathSegs, splitOnChar,
      childrenTagged, Elem.children, Elem.tag, Node.base, rowCount, optTruthy,
      strTruthy, pyOptStr, dictInsert, initRecord, get_text, normalizeWs,
      rawText, rawTextList, splitWsAux, joinStrs, isWsChar]

/-- C9 amended: for an entity rule with a declared (truthy) `pk` path and
at least one matched element, key resolution requires exactly one match of
the `pk` path: zero or several matches raise the schema violation, aborting
the document's extraction with the table store unchanged by this rule;
exactly one match with nonempty normalized text makes that text the `id` of
every row the rule appends for its entity (provided no field shadows `id`
and no deeper rule reuses the entity name). -/
theorem natural_key_resolution (node : Node) (path n p : String)
    (fields : List (String × Config)) (record : Record)
    (pe ppk : Option String) (tables : Tables)
    (hp : strTruthy p = true) (hne : getElems node path ≠ []) :
    ((nodeFind node p).length ≠ 1 →
      process_path node path (.entity n (some p) fields) record pe ppk tables
        = (.error .violation, tables))
    ∧ (∀ e0, nodeFind node p = [e0] → strTruthy (get_text e0) = true →
        "id" ∉ writeColsFields fields → n ∉ deepNamesFields fields →
        ∃ Δ, (process_path node path (.entity n (some p) fields) record pe ppk tables).2
            = tables ++ Δ
          ∧ ∀ pr ∈ Δ, pr.1 = n → rget pr.2 "id" = some (get_text e0)) := by
  constructor
  · intro hcard
    have hpk := get_pk_card node p hp hcard
    rw [process_path]
    cases hel : getElems node path with
    | nil => exact absurd hel hne
    | cons e rest =>
      rw [process_elems_cons_err _ _ _ _ _ _ _ _ _ _ hpk]
  · intro e0 h1 htxt hsh hnest
    rw [pp_entity_snd]
    exact pe_natural (getElems node path) node n p fields pe ppk e0 hp h1 htxt
      hsh hnest tables

/-- Witness for `natural_key_resolution`: parent `P` with `pk` path `k`
resolving to the single element with text `K1`. -/
theorem natural_key_resolution_witness :
    strTruthy "k" = true
    ∧ getElems (.root (.mk "r" "" [.mk "k" "K1" []])) "top" ≠ []
    ∧ nodeFind (.root (.mk "r" "" [.mk "k" "K1" []])) "k" = [.mk "k" "K1" []]
    ∧ strTruthy (get_text (.mk "k" "K1" [])) = true
    ∧ ∃ Δ, (process_path (.root (.mk "r" "" [.mk "k" "K1" []])) "top"
        (.entity "P" (some "k") []) [] none none []).2 = [] ++ Δ
      ∧ ∀ pr ∈ Δ, pr.1 = "P" → rget pr.2 "id" = some (get_text (.mk "k" "K1" [])) := by
  have hfind : nodeFind (.root (.mk "r" "" [.mk "k" "K1" []])) "k" = [.mk "k" "K1" []] := by
    simp +decide [nodeFind, Node.base, findallRel, resolveSegs, pathSegs,
      splitOnChar, childrenTagged, Elem.children, Elem.tag]
  have htxt : strTruthy (get_text (.mk "k" "K1" [])) = true := by
    simp +decide [get_text, normalizeWs, rawText, rawTextList, splitWsAux,
      joinStrs, isWsChar, strTruthy]
  refine ⟨by decide, by simp [getElems], hfind, htxt, ?_⟩
  exact (natural_key_resolution (.root (.mk "r" "" [.mk "k" "K1" []])) "top" "P" "k"
    [] [] none none [] (by decide) (by simp [getElems])).2
    (.mk "k" "K1" []) hfind htxt (by simp [writeColsFields])
    (by rw [deepNamesFields]; simp)

/-- C6 counterexample: with an entity rule for `E` nested beneath another
rule for `E`, both instances read the row counter before either row is
appended, so the second row added (insertion index 1) carries id `"0"`,
not `"1"`. -/
theorem synthetic_id_not_insertion_index :
    run_docs [("top", .entity "E" none [("c", .entity "E" none [])])]
      [.mk "r" "" [.mk "c" "" []]] []
      = [("E", [("id", "0")]), ("E", [("id", "0")])]
    ∧ rget ((rowsOf [("E", [("id", "0")]), ("E", [("id", "0")])] "E").getD 1 []) "id"
      = some "0"
    ∧ ("0" : String) ≠ "1" := by
  refine ⟨?_, by rfl, by decide⟩
  simp +decide [run_docs, process_doc, process_path, process_elems,
    process_fields, get_pk, getElems, nodeFind, findallRel, resolveSegs,
    pathSegs, splitOnChar, childrenTagged, Elem.children, Elem.tag, Node.base,
    rowCount, optTruthy, strTruthy, pyOptStr, dictInsert, initRecord]

/-- C6 amended: every synthetic id equals the entity's accumulated row
count at record creation; provided no rule for the entity has a truthy
`pk`, none is nested beneath another rule for the same entity, and no field
shadows the `id` column, the row at zero-based position `i` of that
entity's sequence across the whole run carries `id = i` — the Nth appended
instance receives `N-1`. -/
theorem synthetic_key_counter (cfg : List (String × Config)) (E : String)
    (docs : List Elem) (hok : ∀ pr ∈ cfg, okForE E pr.2 = true) :
    SynthOk E (run_docs cfg docs []) :=
  run_inv E cfg docs hok [] (synthOk_nil E)

/-- Witness for `synthetic_key_counter`: two documents, each producing one
pk-less `E` row. -/
theorem synthetic_key_counter_witness :
    (∀ pr ∈ [("top", Config.entity "E" none [])], okForE "E" pr.2 = true)
    ∧ SynthOk "E" (run_docs [("top", Config.entity "E" none [])]
        [.mk "r" "" [], .mk "r" "" []] []) := by
  have hok : ∀ pr ∈ [("top", Config.entity "E" none [])], okForE "E" pr.2 = true := by
    intro pr hpr
    simp only [List.mem_singleton] at hpr
    subst hpr
    rw [okForE]
    rw [okFieldsForE]
    simp [optTruthy, deepNamesFields, writeColsFields]
  exact ⟨hok, synthetic_key_counter _ _ _ hok⟩

/-- C7 counterexample: a document whose second top-level rule raises the
schema violation (a `Text` rule matching two elements) still leaves the
row appended by its first top-level rule in the table store. -/
theorem failed_doc_keeps_prior_rows :
    process_doc [("a", .entity "A" none []),
                 ("b", .entity "B" none [("x", .scalar "t")])]
      (.mk "r" "" [.mk "x" "1" [], .mk "x" "2" []]) []
      = (some .violation, [("A", [("id", "0")])]) := by
  simp +decide [process_doc, process_path, process_elems, process_fields,
    get_pk, getElems, nodeFind, findallRel, resolveSegs, pathSegs, splitOnChar,
    childrenTagged, Elem.children, Elem.tag, Node.base, rowCount, optTruthy,
    strTruthy, pyOptStr, dictInsert, initRecord, startsBar]

/-- C7 amended: a document that fails with a schema violation retains in
the table store exactly the rows appended before the failure point — the
store is append-only and nothing is rolled back; only rows never appended
(the record under construction and everything after the failure) are
missing. -/
theorem failed_doc_append_only (cfg : List (String × Config)) (doc : Elem)
    (tables : Tables) (err : PErr) (t2 : Tables)
    (h : process_doc cfg doc tables = (some err, t2)) :
    ∃ Δ, t2 = tables ++ Δ := by
  obtain ⟨Δ, hΔ, _⟩ := pd_frame cfg doc tables
  rw [h] at hΔ
  exact ⟨Δ, hΔ⟩

/-- Witness for `failed_doc_append_only` at the concrete failing document
of the counterexample. -/
theorem failed_doc_append_only_witness :
    ∃ Δ, [("A", [("id", "0")])] = ([] : Tables) ++ Δ :=
  failed_doc_append_only [("a", .entity "A" none []),
      ("b", .entity "B" none [("x", .scalar "t")])]
    (.mk "r" "" [.mk "x" "1" [], .mk "x" "2" []]) [] .violation _
    (by simp +decide [process_doc, process_path, process_elems, process_fields,
      get_pk, getElems, nodeFind, findallRel, resolveSegs, pathSegs, splitOnChar,
      childrenTagged, Elem.children, Elem.tag, Node.base, rowCount, optTruthy,
      strTruthy, pyOptStr, dictInsert, initRecord, startsBar])

/-- C1: a batch of three documents in which the second raises the schema
violation (its `Text` rule matches two elements) is aborted: although the
driver's `except` clause catches the `AssertionError`, the log call
evaluates `exc.msg`, which an `AssertionError` does not have, so the
handler itself raises and the third document is never processed.  The model
returns the aborted outcome with only the first document's row. -/
theorem batch_aborts_on_assertion_failure :
    convert [("p", .entity "E" none [("x", .scalar "t")])]
      [⟨some "111", some (.mk "r" "" [.mk "x" "a" []])⟩,
       ⟨some "222", some (.mk "r" "" [.mk "x" "a" [], .mk "x" "b" []])⟩,
       ⟨some "333", some (.mk "r" "" [.mk "x" "a" []])⟩] [] []
      = .aborted [("E", [("id", "0"), ("t", "a")])] := by
  simp +decide [convert, handleDocFailure, process_doc, process_path,
    process_elems, process_fields, get_pk, getElems, nodeFind, findallRel,
    resolveSegs, pathSegs, splitOnChar, childrenTagged, Elem.children,
    Elem.tag, Node.base, rowCount, optTruthy, strTruthy, pyOptStr, dictInsert,
    initRecord, startsBar, get_text, normalizeWs, rawText, rawTextList,
    splitWsAux, joinStrs, isWsChar]

/-- C8: when an entity name occurs only in top-level entry points (never as
a nested rule), the resolved column list for that entity is the
order-preserving de-duplicated concatenation — the first-seen-order union —
of the per-entry-point column lists, each consisting of `id` (when a truthy
primary-key path is declared) followed by the scalar columns in
field-declaration order. -/
theorem fieldnames_first_seen_union (cfg : List (String × Config)) (E : String)
    (hnest : ∀ pr ∈ cfg, E ∉ nestedNames pr.2) :
    get_fieldnames cfg E = dedupKeys (specTopCols cfg E) := by
  have h := gf_go_inv cfg E (fun _ => []) [] (by rw [dedupKeys]) hnest
  simpa [get_fieldnames] using h

/-- Witness for `fieldnames_first_seen_union`: two top-level entry points
both declaring entity `X`; the union is `[id, c1, c2, c3]`. -/
theorem fieldnames_first_seen_union_witness :
    (∀ pr ∈ [("a", Config.entity "X" (some "k")
                [("f1", Config.scalar "c1"), ("f2", Config.scalar "c2")]),
             ("b", Config.entity "X" none
                [("f3", Config.scalar "c2"), ("f4", Config.scalar "c3")])],
       "X" ∉ nestedNames pr.2)
    ∧ get_fieldnames
        [("a", Config.entity "X" (some "k")
            [("f1", Config.scalar "c1"), ("f2", Config.scalar "c2")]),
         ("b", Config.entity "X" none
            [("f3", Config.scalar "c2"), ("f4", Config.scalar "c3")])] "X"
      = dedupKeys (specTopCols
          [("a", Config.entity "X" (some "k")
              [("f1", Config.scalar "c1"), ("f2", Config.scalar "c2")]),
           ("b", Config.entity "X" none
              [("f3", Config.scalar "c2"), ("f4", Config.scalar "c3")])] "X")
    ∧ dedupKeys (specTopCols
          [("a", Config.entity "X" (some "k")
              [("f1", Config.scalar "c1"), ("f2", Config.scalar "c2")]),
           ("b", Config.entity "X" none
              [("f3", Config.scalar "c2"), ("f4", Config.scalar "c3")])] "X")
      = ["id", "c1", "c2", "c3"] := by
  have hnest : ∀ pr ∈ [("a", Config.entity "X" (some "k")
                [("f1", Config.scalar "c1"), ("f2", Config.scalar "c2")]),
             ("b", Config.entity "X" none
                [("f3", Config.scalar "c2"), ("f4", Config.scalar "c3")])],
       "X" ∉ nestedNames pr.2 := by
    intro pr hpr
    simp only [List.mem_cons, List.mem_singleton] at hpr
    rcases hpr with h | h | h
    all_goals first
      | (subst h
         simp +decide [nestedNames, deepNamesFields, deepNames])
      | simp at h
  refine ⟨hnest, fieldnames_first_seen_union _ _ hnest, ?_⟩
  simp +decide [specTopCols, specEntryCols, localCols, fnCol, dedupKeys,
    optTruthy, strTruthy, hasColon, startsBar, colonField, splitOnChar, strTail]

/-- C10: every record an entity rule appends carries an `id` key, yet the
field-order resolver lists `id` only for entities with a truthy primary key
or a parent; for a top-level pk-less entity rule the produced records carry
an `id` column that is absent from the table's resolved column order. -/
theorem records_carry_id_absent_from_columns :
    (∀ (cfg : List (String × Config)) (doc : Elem) (tables : Tables),
      ∃ Δ, (process_doc cfg doc tables).2 = tables ++ Δ
        ∧ ∀ pr ∈ Δ, (rget pr.2 "id").isSome = true)
    ∧ get_fieldnames [("p", .entity "T" none [("x", .scalar "c")])] "T" = ["c"]
    ∧ process_doc [("p", .entity "T" none [("x", .scalar "c")])]
        (.mk "r" "" [.mk "x" "v" []]) []
        = (none, [("T", [("id", "0"), ("c", "v")])])
    ∧ "id" ∉ (["c"] : List String) := by
  refine ⟨pd_frame, ?_, ?_, by decide⟩
  · simp +decide [get_fieldnames, gf_go, add_fieldnames, add_fields, afAcc0,
      fupdate, dedupKeys, fnCol, hasColon, startsBar, optTruthy, strTruthy,
      colonField, splitOnChar, strTail]
  · simp +decide [process_doc, process_path, process_elems, process_fields,
      get_pk, getElems, nodeFind, findallRel, resolveSegs, pathSegs,
      splitOnChar, childrenTagged, Elem.children, Elem.tag, Node.base,
      rowCount, optTruthy, strTruthy, pyOptStr, dictInsert, initRecord,
      startsBar, hasColon, get_text, normalizeWs, rawText, rawTextList,
      splitWsAux, joinStrs, isWsChar]

/-- Witness applying the universal part of
`records_carry_id_absent_from_columns` at a concrete document. -/
theorem records_carry_id_absent_from_columns_witness :
    ∃ Δ, (process_doc [("p", Config.entity "T" none [("x", Config.scalar "c")])]
        (.mk "r" "" [.mk "x" "v" []]) []).2 = [] ++ Δ
      ∧ ∀ pr ∈ Δ, (rget pr.2 "id").isSome = true :=
  records_carry_id_absent_from_columns.1
    [("p", Config.entity "T" none [("x", Config.scalar "c")])]
    (.mk "r" "" [.mk "x" "v" []]) []
